import Mathlib

/-! # claude-ride-with-whip statusline: the sprite renderer

A shallow embedding of `cmd/statusline/main.go` (`getHorseLines`, the
per-line colouring loop of `renderStatusLineMulti` / `runAnimationMode`,
`loadLastCallState` / `saveLastCallState`) and of `cmd/statusline/width.go`.

Conventions of the embedding.

* A timestamp is the value of `now.UnixMilli()`, an `Int`.  Go's `int` is
  taken to be 64 bits wide, so `int(now.UnixMilli()/250)` is the identity.
* Go's `/` and `%` on integers truncate toward zero (`Int.tdiv`,
  `Int.tmod`) and panic on a zero divisor; indexing a slice out of range
  panics.  A panic is the result `none`.
* A Go string is embedded as a Lean `String` (its runes); `range` over a
  string and `[]rune(s)` enumerate `s.data`.
* A `strings.Builder` is the text written to it so far.
* A write to the debug log or to the state file is recorded as requested;
  the source drops its error.
-/

set_option autoImplicit false

namespace Statusline

/-! ## Go primitives -/

/-- Go `a % b` on `int`: sign of the dividend, run-time panic when `b = 0`. -/
def goMod (a b : Int) : Option Int :=
  if b = 0 then none else some (Int.tmod a b)

/-- Go `xs[i]` on a slice: run-time panic when `i` is out of range. -/
def goIndex {α : Type} (xs : List α) (i : Int) : Option α :=
  if i < 0 then none else xs[i.toNat]?

/-! ## Tables and width measurement

The frame and sprite tables (`HorseFrames`, `HorseSprite`) and the rune
width table of `go-runewidth` are not part of the files embedded here; they
are the fields of an environment. -/

/-- The package-level data `getHorseLines` reads. -/
structure Env where
  /-- Cell width of one rune (`runewidth.RuneWidth`). -/
  RuneWidth : Char → Nat
  /-- The frame table: each frame is a list of background lines. -/
  HorseFrames : List (List String)
  /-- The sprite table: each sprite is a list of sprite lines. -/
  HorseSprite : List (List String)

/-- Modelled from the spec: `StringWidth` wraps `runewidth.StringWidth`, whose
body is outside this repository; section 4.1 describes it as counting each
character's display-cell footprint, so it is the sum of the rune widths. -/
def StringWidth (E : Env) (s : String) : Int :=
  ((s.data.map E.RuneWidth).sum : Nat)

/-- Modelled from the spec: `NumFrames` is missing from the embedded files;
the data model makes it the length `N` of the frame table. -/
def NumFrames (E : Env) : Int :=
  (E.HorseFrames.length : Nat)

/-- Modelled from the spec: `GetHorseSprite` is missing from the embedded
files; the sprite table is the sequence parallel to the frame table, so it
is the lookup `HorseSprite[frameIndex]`. -/
def GetHorseSprite (E : Env) (frameIndex : Int) : Option (List String) :=
  goIndex E.HorseSprite frameIndex

/-! ## Debug state (`CallState`, `loadLastCallState`, `saveLastCallState`) -/

/-- `CallState` stores the last call state for debug mode. -/
structure CallState where
  LastCallTime : Int
  FrameIndex : Int
  Position : Int
  deriving DecidableEq, Repr

/-- The values one debug line is formatted from.  The elapsed time printed
is `now.Sub(lastCallTime)`, taken at the full resolution of `now`; the
embedding does not compute it and keeps its second operand, the time read
back from the persisted state. -/
structure DebugMsg where
  now : Int
  frameIndex : Int
  numFrames : Int
  position : Int
  maxPos : Int
  lastCallTime : Int
  deriving DecidableEq, Repr

/-- A write `getHorseLines` requests.  The source drops the error of each, so
whether the bytes reach the disk is not part of the embedding. -/
inductive Write where
  /-- `debugFile.WriteString(debugMsg)`. -/
  | debugLog (debugMsg : DebugMsg)
  /-- `os.WriteFile(statePath, data, 0644)` with the marshalled state. -/
  | stateFile (state : CallState)
  deriving DecidableEq, Repr

/-- What `getHorseLines` touches outside its arguments: what reading the
debug state file yields (`none` when it is missing or does not parse), and
the writes requested so far, in order. -/
structure World where
  stateFile : Option CallState
  writes : List Write
  deriving DecidableEq, Repr

/-- `time.Time{}.UnixMilli()`: midnight of January 1 of year 1, UTC. -/
def zeroTimeMilli : Int := -62135596800000

/-- `loadLastCallState` loads the previous call state from disk. -/
def loadLastCallState (w : World) : Int × Int × Int :=
  match w.stateFile with
  | none => (zeroTimeMilli, 0, 0)
  | some state => (state.LastCallTime, state.FrameIndex, state.Position)

/-- `saveLastCallState` saves the current call state to disk: it requests the
write of the state file. -/
def saveLastCallState (w : World) (now frameIndex position : Int) : World :=
  let state : CallState :=
    { LastCallTime := now, FrameIndex := frameIndex, Position := position }
  { w with writes := w.writes ++ [Write.stateFile state] }

/-- The `if debugFile != nil` block of `getHorseLines`. -/
def debugLogging (E : Env) (debugFile : Bool) (w : World)
    (now frameIndex position maxPos : Int) : World :=
  if debugFile then
    let lastCallTime := (loadLastCallState w).1
    let debugMsg : DebugMsg :=
      { now := now, frameIndex := frameIndex, numFrames := NumFrames E,
        position := position, maxPos := maxPos, lastCallTime := lastCallTime }
    let w1 := { w with writes := w.writes ++ [Write.debugLog debugMsg] }
    saveLastCallState w1 now frameIndex position
  else w

/-! ## `getHorseLines` -/

/-- A loop `for j := 0; j < n; j++ { row.WriteByte('.') }`: `n` filler bytes,
none at all when `n ≤ 0`. -/
def dots (n : Int) : String :=
  String.mk (List.replicate n.toNat '.')

/-- The body of the loop `for i := 0; i < 4; i++` of `getHorseLines`: row `i`.
The test `spriteRowIndex >= 0 && spriteRowIndex < len(sprite)` holds exactly
when the lookup `sprite[spriteRowIndex]` succeeds. -/
def buildRow (E : Env) (frameWidth position : Int) (sprite : List String)
    (i : Int) : String :=
  let row := dots position
  let spriteRowIndex := i - 1
  match goIndex sprite spriteRowIndex with
  | some spriteLine =>
    let row := row ++ String.mk spriteLine.data
    let spriteLineWidth := StringWidth E spriteLine
    let remaining := frameWidth - position - spriteLineWidth
    if remaining > 0 then row ++ dots remaining else row
  | none =>
    let remaining := frameWidth - position
    row ++ dots remaining

/-- The frame index of line 188: `int(now.UnixMilli()/250) % NumFrames()`. -/
def frameIndexAt (E : Env) (now : Int) : Option Int :=
  goMod (Int.tdiv now 250) (NumFrames E)

/-- The position of lines 197-198:
`maxPos - (int(now.UnixMilli()/500) % maxPos)` with `maxPos = frameWidth - 20`. -/
def positionAt (frameWidth now : Int) : Option Int :=
  let maxPos := frameWidth - 20
  (goMod (Int.tdiv now 500) maxPos).map (fun r => maxPos - r)

/-- `getHorseLines` returns the current frame of the horse animation: the
four rows, and the world with the writes the optional debug logging requests.
`debugFile` is `true` when the log file handle is not nil. -/
def getHorseLines (E : Env) (debugFile : Bool) (w : World) (now : Int) :
    Option (List String × World) := do
  let frameIndex ← frameIndexAt E now
  let frame ← goIndex E.HorseFrames frameIndex
  let sprite ← GetHorseSprite E frameIndex
  let frameWidth := StringWidth E (← goIndex frame 0)
  let maxPos := frameWidth - 20
  let position ← positionAt frameWidth now
  let w1 := debugLogging E debugFile w now frameIndex position maxPos
  pure ([0, 1, 2, 3].map (buildRow E frameWidth position sprite), w1)

/-! ## The colouring loop -/

/-- `colorReset`. -/
def colorReset : String := "\x1b[0m"

/-- `colorRed160`. -/
def colorRed160 : String := "\x1b[38;5;160m"

/-- One write to the `strings.Builder` of the colouring loop. -/
inductive Chunk where
  /-- `result.WriteString(colorRed160)`. -/
  | on
  /-- `result.WriteString(colorReset)`. -/
  | off
  /-- `result.WriteRune(ch)`. -/
  | rune (ch : Char)
  deriving DecidableEq, Repr

/-- The text one write appends. -/
def Chunk.text : Chunk → String
  | .on => colorRed160
  | .off => colorReset
  | .rune ch => String.singleton ch

/-- `result.String()`: the writes, concatenated. -/
def builderString (ws : List Chunk) : String :=
  ws.foldl (fun acc c => acc ++ c.text) ""

/-- The test `ch == '.' || ch == ' '` of the colouring loop. -/
def isPlain (ch : Char) : Bool :=
  ch == '.' || ch == ' '

/-- One iteration of `for _, ch := range line` on the state
`(result, inColor)`. -/
def colorStep (st : List Chunk × Bool) (ch : Char) : List Chunk × Bool :=
  if isPlain ch then
    if st.2 then (st.1 ++ [Chunk.off, Chunk.rune ch], false)
    else (st.1 ++ [Chunk.rune ch], false)
  else
    if !st.2 then (st.1 ++ [Chunk.on, Chunk.rune ch], true)
    else (st.1 ++ [Chunk.rune ch], true)

/-- The writes the colouring loop makes for one line (lines 156-178 and
326-347), the closing reset included. -/
def colorWrites (line : String) : List Chunk :=
  let st := line.data.foldl colorStep ([], false)
  if st.2 then st.1 ++ [Chunk.off] else st.1

/-- The line as printed by the colouring loop. -/
def colorLine (line : String) : String :=
  builderString (colorWrites line)

/-! ## The data-model invariant and a sample table -/

/-- The invariant of the data model for background width `W`: the two tables
are parallel and not empty, every background line of every frame has display
width `W`, and every sprite has exactly two lines. -/
structure TablesInvariant (E : Env) (W : Int) : Prop where
  nonempty : E.HorseFrames ≠ []
  parallel : E.HorseSprite.length = E.HorseFrames.length
  width : ∀ frame ∈ E.HorseFrames, frame ≠ [] ∧ ∀ line ∈ frame, StringWidth E line = W
  two_lines : ∀ sprite ∈ E.HorseSprite, sprite.length = 2

/-- Every sprite line has display width at most `k`. -/
def SpriteWidthAtMost (E : Env) (k : Int) : Prop :=
  ∀ sprite ∈ E.HorseSprite, ∀ line ∈ sprite, StringWidth E line ≤ k

/-- A table of eight frames with background width `W`, in the shape of the
reference data: four background lines of fillers per frame, two-line
sprites of widths 6, 7 and 8 (the horse glyph is two cells wide). -/
def sampleEnv (W : Nat) : Env where
  RuneWidth := fun ch => if ch = '🐴' then 2 else 1
  HorseFrames := List.replicate 8 (List.replicate 4 (dots W))
  HorseSprite :=
    [ ["🐴⏜))~", " ﾉﾉ ﾉﾉ"], ["🐴⏜))~~", " / \\ ﾉﾉ"],
      ["🐴⏜))~~~", "  \\\\ //"], ["🐴⏜))~~", " ﾉﾉ / \\"],
      ["🐴⏜))~", " ﾉﾉ ﾉﾉ"], ["🐴⏜))~~", " / \\ ﾉﾉ"],
      ["🐴⏜))~~~", "  \\\\ //"], ["🐴⏜))~~", " ﾉﾉ / \\"] ]

/-! ## The colouring, in the words of the specification -/

/-- Follows the specification: the maximal runs of a line, each with its
class (`true` for a run of fillers and spaces, `false` for a run of other
characters).  A character joins the run that follows it when the classes
agree and starts a new run otherwise. -/
def maximalRuns : List Char → List (Bool × List Char)
  | [] => []
  | ch :: rest =>
    match maximalRuns rest with
    | [] => [(isPlain ch, [ch])]
    | (p, run) :: runs =>
      if isPlain ch = p then (p, ch :: run) :: runs
      else (isPlain ch, [ch]) :: (p, run) :: runs

/-- Follows the specification: a run of fillers and spaces is emitted as it
is; a run of other characters is one coloured span (colour on, the run,
colour off). -/
def spanWrites (r : Bool × List Char) : List Chunk :=
  if r.1 then r.2.map Chunk.rune
  else Chunk.on :: r.2.map Chunk.rune ++ [Chunk.off]

/-- The text of `spanWrites`. -/
def spanText (r : Bool × List Char) : String :=
  if r.1 then String.mk r.2
  else colorRed160 ++ String.mk r.2 ++ colorReset

/-- The writes of the colouring loop from a given `inColor` on, the closing
reset included: the loop of `colorWrites`, unrolled from the front. -/
def colorFrom : Bool → List Char → List Chunk
  | inColor, [] => if inColor then [Chunk.off] else []
  | inColor, ch :: rest =>
    if isPlain ch then
      (if inColor then [Chunk.off, Chunk.rune ch] else [Chunk.rune ch]) ++ colorFrom false rest
    else
      (if inColor then [Chunk.rune ch] else [Chunk.on, Chunk.rune ch]) ++ colorFrom true rest

/-- Entering a list of writes with a span open: an opening `on` is not
needed, anything else is preceded by the reset. -/
def closeSpan : List Chunk → List Chunk
  | Chunk.on :: ws => ws
  | ws => Chunk.off :: ws

/-! ## `trimNullBytes` -/

/-- A Go `byte`. -/
abbrev Byte := Fin 256

/-- `trimNullBytes` removes null bytes from input: the loop
`for _, b := range data` appends every `b != 0` to `result`. -/
def trimNullBytes (data : List Byte) : List Byte :=
  data.foldl (fun result b => if b ≠ 0 then result ++ [b] else result) []

/-! ## Basic facts about the primitives -/

theorem goMod_eq_emod {a b : Int} (ha : 0 ≤ a) (hb : 0 < b) :
    goMod a b = some (a % b) := by
  have hb0 : b ≠ 0 := by omega
  simp [goMod, hb0, Int.tmod_eq_emod ha (le_of_lt hb)]

theorem tdiv_eq_ediv_of_nonneg {a : Int} (ha : 0 ≤ a) (k : Nat) :
    Int.tdiv a (k : Int) = a / (k : Int) :=
  Int.tdiv_eq_ediv ha (Int.ofNat_nonneg k)

theorem goIndex_eq_some {α : Type} (xs : List α) (i : Int) (h0 : 0 ≤ i)
    (h1 : i < (xs.length : Nat)) :
    ∃ x ∈ xs, goIndex xs i = some x ∧ xs[i.toNat]? = some x := by
  have hlt : i.toNat < xs.length := by omega
  refine ⟨xs[i.toNat], List.getElem_mem _, ?_, ?_⟩
  · have hneg : ¬ i < 0 := by omega
    simp [goIndex, hneg, List.getElem?_eq_getElem hlt]
  · exact List.getElem?_eq_getElem hlt

theorem goIndex_zero {α : Type} (x : α) (xs : List α) :
    goIndex (x :: xs) 0 = some x := by
  simp [goIndex]

theorem dots_data (n : Int) : (dots n).data = List.replicate n.toNat '.' := rfl

theorem StringWidth_append (E : Env) (s t : String) :
    StringWidth E (s ++ t) = StringWidth E s + StringWidth E t := by
  simp [StringWidth]

theorem StringWidth_dots (E : Env) (hdot : E.RuneWidth '.' = 1) (n : Int) :
    StringWidth E (dots n) = (n.toNat : Nat) := by
  simp [StringWidth, dots, hdot]

/-- The frame index selected at a non-negative timestamp. -/
theorem frameIndexAt_of_nonneg (E : Env) (hN : E.HorseFrames ≠ []) (now : Int)
    (hnow : 0 ≤ now) : frameIndexAt E now = some (now / 250 % NumFrames E) := by
  have hlen : 0 < E.HorseFrames.length := List.length_pos.mpr hN
  have hpos : (0 : Int) < NumFrames E := by
    simp only [NumFrames]; exact_mod_cast hlen
  have hq : Int.tdiv now 250 = now / 250 := Int.tdiv_eq_ediv hnow (by decide)
  have hq0 : 0 ≤ now / 250 := Int.ediv_nonneg hnow (by decide)
  simp only [frameIndexAt, hq]
  exact goMod_eq_emod hq0 hpos

/-- The position selected at a non-negative timestamp on a track wider than
the margin. -/
theorem positionAt_of_nonneg (W now : Int) (hW : 20 < W) (hnow : 0 ≤ now) :
    positionAt W now = some (W - 20 - now / 500 % (W - 20)) := by
  have hq : Int.tdiv now 500 = now / 500 := Int.tdiv_eq_ediv hnow (by decide)
  have hq0 : 0 ≤ now / 500 := Int.ediv_nonneg hnow (by decide)
  have hpos : (0 : Int) < W - 20 := by omega
  simp only [positionAt, hq, goMod_eq_emod hq0 hpos, Option.map_some']

/-- The position lies in `1 .. W - 20`. -/
theorem position_range (W now : Int) (hW : 20 < W) :
    1 ≤ W - 20 - now / 500 % (W - 20) ∧ W - 20 - now / 500 % (W - 20) ≤ W - 20 := by
  have hpos : (0 : Int) < W - 20 := by omega
  have h1 := Int.emod_nonneg (now / 500) (ne_of_gt hpos)
  have h2 := Int.emod_lt_of_pos (now / 500) hpos
  omega

/-- At a non-negative timestamp, on tables that satisfy the invariant,
`getHorseLines` returns as soon as the position is defined: its four rows are
built from the floor frame index and that position, whatever the debug
arguments. -/
theorem getHorseLines_of_position (E : Env) (W : Int) (hE : TablesInvariant E W)
    (now : Int) (hnow : 0 ≤ now) (pos : Int) (hpos : positionAt W now = some pos) :
    ∃ sprite ∈ E.HorseSprite,
      E.HorseSprite[(now / 250 % NumFrames E).toNat]? = some sprite ∧
      ∀ (debugFile : Bool) (w : World),
        getHorseLines E debugFile w now =
          some ([0, 1, 2, 3].map (buildRow E W pos sprite),
                debugLogging E debugFile w now (now / 250 % NumFrames E) pos (W - 20)) := by
  have hlen : 0 < E.HorseFrames.length := List.length_pos.mpr hE.nonempty
  have hN : (0 : Int) < NumFrames E := by
    simp only [NumFrames]; exact_mod_cast hlen
  have h0 : 0 ≤ now / 250 % NumFrames E := Int.emod_nonneg _ (ne_of_gt hN)
  have h1 : now / 250 % NumFrames E < NumFrames E := Int.emod_lt_of_pos _ hN
  obtain ⟨frame, hfmem, hframe, -⟩ :=
    goIndex_eq_some E.HorseFrames _ h0 (by simpa [NumFrames] using h1)
  obtain ⟨sprite, hsmem, hsprite, hsget⟩ :=
    goIndex_eq_some E.HorseSprite _ h0 (by rw [hE.parallel]; simpa [NumFrames] using h1)
  obtain ⟨hne, hwidth⟩ := hE.width frame hfmem
  obtain ⟨line, rest, rfl⟩ := List.exists_cons_of_ne_nil hne
  have hline : StringWidth E line = W := hwidth line (List.mem_cons_self _ _)
  refine ⟨sprite, hsmem, hsget, fun debugFile w => ?_⟩
  simp only [getHorseLines, frameIndexAt_of_nonneg E hE.nonempty now hnow, hframe,
    GetHorseSprite, hsprite, goIndex_zero, hline, hpos,
    Option.bind_eq_bind, Option.some_bind, Option.pure_def, bind_pure_comp,
    Option.map_some', bind, pure]

/-- The case `W > 20` of `getHorseLines_of_position`. -/
theorem getHorseLines_of_nonneg (E : Env) (W : Int) (hE : TablesInvariant E W)
    (hW : 20 < W) (now : Int) (hnow : 0 ≤ now) :
    ∃ sprite ∈ E.HorseSprite,
      E.HorseSprite[(now / 250 % NumFrames E).toNat]? = some sprite ∧
      ∀ (debugFile : Bool) (w : World),
        getHorseLines E debugFile w now =
          some ([0, 1, 2, 3].map
                  (buildRow E W (W - 20 - now / 500 % (W - 20)) sprite),
                debugLogging E debugFile w now (now / 250 % NumFrames E)
                  (W - 20 - now / 500 % (W - 20)) (W - 20)) :=
  getHorseLines_of_position E W hE now hnow _ (positionAt_of_nonneg W now hW hnow)

/-! ## The rows -/

theorem goIndex_mem {α : Type} {xs : List α} {i : Int} {x : α}
    (h : goIndex xs i = some x) : x ∈ xs := by
  unfold goIndex at h
  split at h
  · exact absurd h (by simp)
  · exact List.getElem?_mem h

theorem goIndex_neg {α : Type} (xs : List α) (i : Int) (h : i < 0) :
    goIndex xs i = none := by
  simp [goIndex, h]

theorem goIndex_length_le {α : Type} (xs : List α) (i : Int)
    (h : (xs.length : Nat) ≤ i) : goIndex xs i = none := by
  have hneg : ¬ i < 0 := by omega
  have hle : xs.length ≤ i.toNat := by omega
  simp [goIndex, hneg, List.getElem?_eq_none hle]

/-- A row without sprite content: fillers up to the frame width. -/
theorem buildRow_plain (E : Env) (W pos : Int) (sprite : List String) (i : Int)
    (h : goIndex sprite (i - 1) = none) :
    buildRow E W pos sprite i = dots pos ++ dots (W - pos) := by
  simp [buildRow, h]

/-- A row with sprite content: leading fillers, the sprite line, and the
remaining fillers when the remainder is positive. -/
theorem buildRow_sprite (E : Env) (W pos : Int) (sprite : List String) (i : Int)
    (spriteLine : String) (h : goIndex sprite (i - 1) = some spriteLine) :
    buildRow E W pos sprite i =
      dots pos ++ spriteLine ++ dots (W - pos - StringWidth E spriteLine) := by
  have hmk : String.mk spriteLine.data = spriteLine := rfl
  simp only [buildRow, h, hmk]
  split
  · rfl
  · next hrem =>
    have h0 : (W - pos - StringWidth E spriteLine).toNat = 0 := by omega
    apply String.ext
    simp [dots, h0]

theorem dots_append_dots (a b : Int) (ha : 0 ≤ a) (hb : 0 ≤ b) :
    dots a ++ dots b = dots (a + b) := by
  apply String.ext
  have h : (a + b).toNat = a.toNat + b.toNat := by omega
  simp only [String.data_append, dots_data, h, List.append_replicate_replicate]

/-- Every row has the frame width when the sprite fits to the right of the
position. -/
theorem StringWidth_buildRow (E : Env) (hdot : E.RuneWidth '.' = 1) (W pos : Int)
    (sprite : List String) (h0 : 0 ≤ pos) (hW : pos ≤ W)
    (hfit : ∀ line ∈ sprite, pos + StringWidth E line ≤ W) (i : Int) :
    StringWidth E (buildRow E W pos sprite i) = W := by
  cases h : goIndex sprite (i - 1) with
  | none =>
    rw [buildRow_plain E W pos sprite i h, dots_append_dots pos (W - pos) h0 (by omega),
      StringWidth_dots E hdot]
    have : pos + (W - pos) = W := by omega
    rw [this]; omega
  | some spriteLine =>
    have hle := hfit spriteLine (goIndex_mem h)
    rw [buildRow_sprite E W pos sprite i spriteLine h, StringWidth_append,
      StringWidth_append, StringWidth_dots E hdot, StringWidth_dots E hdot]
    omega

/-- With a two-line sprite, rows 0 and 3 have no sprite content and rows 1
and 2 carry sprite lines 0 and 1. -/
theorem rows_of_two_lines (E : Env) (W pos : Int) (l0 l1 : String) :
    [0, 1, 2, 3].map (buildRow E W pos [l0, l1]) =
      [ dots pos ++ dots (W - pos),
        dots pos ++ l0 ++ dots (W - pos - StringWidth E l0),
        dots pos ++ l1 ++ dots (W - pos - StringWidth E l1),
        dots pos ++ dots (W - pos) ] := by
  have h0 : goIndex [l0, l1] ((0 : Int) - 1) = none := by simp [goIndex]
  have h1 : goIndex [l0, l1] ((1 : Int) - 1) = some l0 := by simp [goIndex]
  have h2 : goIndex [l0, l1] ((2 : Int) - 1) = some l1 := by simp [goIndex]
  have h3 : goIndex [l0, l1] ((3 : Int) - 1) = none := by simp [goIndex]
  simp only [List.map_cons, List.map_nil, buildRow_plain E W pos _ _ h0,
    buildRow_plain E W pos _ _ h3, buildRow_sprite E W pos _ _ _ h1,
    buildRow_sprite E W pos _ _ _ h2]

theorem exists_pair_of_length_two {α : Type} (xs : List α) (h : xs.length = 2) :
    ∃ a b, xs = [a, b] := by
  match xs, h with
  | [a, b], _ => exact ⟨a, b, rfl⟩

/-- The sample table satisfies the invariant. -/
theorem sampleEnv_invariant (W : Nat) : TablesInvariant (sampleEnv W) W where
  nonempty := by simp [sampleEnv]
  parallel := by simp [sampleEnv]
  width := by
    intro frame hframe
    have hf : frame = List.replicate 4 (dots W) := by
      simpa [sampleEnv] using hframe
    subst hf
    refine ⟨by simp, fun line hline => ?_⟩
    have hl : line = dots W := by simpa using hline
    subst hl
    rw [StringWidth_dots _ (by simp [sampleEnv])]
    simp
  two_lines := by simp [sampleEnv]

theorem sampleEnv_spriteWidth (W : Nat) : SpriteWidthAtMost (sampleEnv W) 8 := by
  simp [SpriteWidthAtMost, sampleEnv, StringWidth]

theorem sampleEnv_dot (W : Nat) : (sampleEnv W).RuneWidth '.' = 1 := by
  simp [sampleEnv]

/-- C1: at every non-negative timestamp, on tables that satisfy the
data-model invariant with background width 95 and whose sprite lines are at
most 8 cells wide, `getHorseLines` returns exactly 4 lines and each of them
has display width exactly 95 (the sum of the rune widths, `'.'` counting 1). -/
theorem getHorseLines_line_alignment (E : Env) (hdot : E.RuneWidth '.' = 1)
    (hE : TablesInvariant E 95) (hS : SpriteWidthAtMost E 8) (now : Int)
    (hnow : 0 ≤ now) (debugFile : Bool) (w : World) :
    ∃ lines w1, getHorseLines E debugFile w now = some (lines, w1) ∧
      lines.length = 4 ∧ ∀ line ∈ lines, StringWidth E line = 95 := by
  obtain ⟨sprite, hmem, -, hget⟩ := getHorseLines_of_nonneg E 95 hE (by decide) now hnow
  obtain ⟨hp1, hp2⟩ := position_range 95 now (by decide)
  refine ⟨_, _, hget debugFile w, by simp, fun line hline => ?_⟩
  obtain ⟨i, -, rfl⟩ := List.mem_map.mp hline
  refine StringWidth_buildRow E hdot 95 _ sprite (by omega) (by omega) ?_ i
  intro l hl
  have := hS sprite hmem l hl
  omega

theorem getHorseLines_line_alignment_witness :
    ∃ lines w1, getHorseLines (sampleEnv 95) false ⟨none, []⟩ 37000 = some (lines, w1) ∧
      lines.length = 4 ∧ ∀ line ∈ lines, StringWidth (sampleEnv 95) line = 95 :=
  getHorseLines_line_alignment (sampleEnv 95) (sampleEnv_dot 95) (sampleEnv_invariant 95)
    (sampleEnv_spriteWidth 95) 37000 (by decide) false ⟨none, []⟩

/-- When the frame width is 20 the modulo of the position has a zero divisor:
`getHorseLines` fails at every timestamp. -/
theorem getHorseLines_width_twenty (E : Env) (hE : TablesInvariant E 20) (now : Int)
    (debugFile : Bool) (w : World) : getHorseLines E debugFile w now = none := by
  have hp : positionAt 20 now = none := by simp [positionAt, goMod]
  cases h1 : frameIndexAt E now with
  | none => simp [getHorseLines, h1]
  | some frameIndex =>
    cases h2 : goIndex E.HorseFrames frameIndex with
    | none => simp [getHorseLines, h1, h2]
    | some frame =>
      cases h3 : GetHorseSprite E frameIndex with
      | none => simp [getHorseLines, h1, h2, h3]
      | some sprite =>
        cases h4 : goIndex frame 0 with
        | none => simp [getHorseLines, h1, h2, h3, h4]
        | some line =>
          have hline : StringWidth E line = 20 :=
            (hE.width frame (goIndex_mem h2)).2 line (goIndex_mem h4)
          simp [getHorseLines, h1, h2, h3, h4, hline, hp]

/-! ## Frame index before the epoch (C2) -/

/-- C2: evaluation at the timestamp -250 ms on any table of 8 frames.  The
code computes the frame index `int(-250/250) % 8 = -1`, where the floor
formula gives 7, and the lookup `HorseFrames[-1]` panics: `getHorseLines`
does not return. -/
theorem getHorseLines_before_epoch (E : Env) (hN : E.HorseFrames.length = 8)
    (debugFile : Bool) (w : World) :
    frameIndexAt E (-250) = some (-1) ∧ (-250 : Int) / 250 % NumFrames E = 7 ∧
      getHorseLines E debugFile w (-250) = none := by
  have hNum : NumFrames E = 8 := by simp [NumFrames, hN]
  have hfi : frameIndexAt E (-250) = some (-1) := by
    simp only [frameIndexAt, hNum]; decide
  refine ⟨hfi, by rw [hNum]; decide, ?_⟩
  simp only [getHorseLines, hfi, goIndex_neg E.HorseFrames (-1) (by decide),
    Option.bind_eq_bind, Option.some_bind, Option.none_bind, bind]

theorem getHorseLines_before_epoch_witness :
    frameIndexAt (sampleEnv 95) (-250) = some (-1) ∧
      (-250 : Int) / 250 % NumFrames (sampleEnv 95) = 7 ∧
      getHorseLines (sampleEnv 95) false ⟨none, []⟩ (-250) = none :=
  getHorseLines_before_epoch (sampleEnv 95) (by simp [sampleEnv]) false ⟨none, []⟩

/-! ## Narrow backgrounds (C3) -/

/-- C3: evaluation on any table whose background is 20 cells wide
(`maxPos = 0`), at any non-negative timestamp.  The frame, the sprite and the
frame width are obtained, then `int(now.UnixMilli()/500) % maxPos` divides by
zero: there is no guard, the position is not defined and `getHorseLines`
does not return, where the claim says it renders at position 0. -/
theorem getHorseLines_narrow_fails (E : Env) (hE : TablesInvariant E 20) (now : Int)
    (hnow : 0 ≤ now) (debugFile : Bool) (w : World) :
    (∃ frameIndex frame sprite line,
      frameIndexAt E now = some frameIndex ∧
      goIndex E.HorseFrames frameIndex = some frame ∧
      GetHorseSprite E frameIndex = some sprite ∧
      goIndex frame 0 = some line ∧ StringWidth E line - 20 = 0) ∧
    goMod (Int.tdiv now 500) 0 = none ∧ positionAt 20 now = none ∧
    getHorseLines E debugFile w now = none := by
  have hlen : 0 < E.HorseFrames.length := List.length_pos.mpr hE.nonempty
  have hN : (0 : Int) < NumFrames E := by
    simp only [NumFrames]; exact_mod_cast hlen
  have h0 : 0 ≤ now / 250 % NumFrames E := Int.emod_nonneg _ (ne_of_gt hN)
  have h1 : now / 250 % NumFrames E < NumFrames E := Int.emod_lt_of_pos _ hN
  obtain ⟨frame, hfmem, hframe, -⟩ :=
    goIndex_eq_some E.HorseFrames _ h0 (by simpa [NumFrames] using h1)
  obtain ⟨sprite, -, hsprite, -⟩ :=
    goIndex_eq_some E.HorseSprite _ h0 (by rw [hE.parallel]; simpa [NumFrames] using h1)
  obtain ⟨hne, hwidth⟩ := hE.width frame hfmem
  obtain ⟨line, rest, rfl⟩ := List.exists_cons_of_ne_nil hne
  have hline : StringWidth E line = 20 := hwidth line (List.mem_cons_self _ _)
  refine ⟨⟨now / 250 % NumFrames E, line :: rest, sprite, line,
    frameIndexAt_of_nonneg E hE.nonempty now hnow, hframe, hsprite, goIndex_zero _ _,
    by omega⟩, by simp [goMod], by simp [positionAt, goMod],
    getHorseLines_width_twenty E hE now debugFile w⟩

theorem getHorseLines_narrow_fails_witness :
    (∃ frameIndex frame sprite line,
      frameIndexAt (sampleEnv 20) 0 = some frameIndex ∧
      goIndex (sampleEnv 20).HorseFrames frameIndex = some frame ∧
      GetHorseSprite (sampleEnv 20) frameIndex = some sprite ∧
      goIndex frame 0 = some line ∧ StringWidth (sampleEnv 20) line - 20 = 0) ∧
    goMod (Int.tdiv 0 500) 0 = none ∧ positionAt 20 0 = none ∧
    getHorseLines (sampleEnv 20) false ⟨none, []⟩ 0 = none :=
  getHorseLines_narrow_fails (sampleEnv 20) (sampleEnv_invariant 20) 0 (by decide) false
    ⟨none, []⟩

/-- On a background narrower than 20 cells (`maxPos < 0`), at a non-negative
timestamp, the modulo has a non-zero divisor and `getHorseLines` returns,
with a negative position (at most `W - 20`): no leading filler is written and
each row is padded with `W - position` cells less the sprite width, which is
more than the frame width leaves. -/
theorem getHorseLines_negative_maxPos (E : Env) (W : Int) (hE : TablesInvariant E W)
    (hlt : W < 20) (now : Int) (hnow : 0 ≤ now) (debugFile : Bool) (w : World) :
    ∃ pos l0 l1 w1,
      positionAt W now = some pos ∧ pos ≤ W - 20 ∧
      E.HorseSprite[(now / 250 % NumFrames E).toNat]? = some [l0, l1] ∧
      getHorseLines E debugFile w now =
        some ([ dots (W - pos),
                l0 ++ dots (W - pos - StringWidth E l0),
                l1 ++ dots (W - pos - StringWidth E l1),
                dots (W - pos) ], w1) := by
  have hne : W - 20 ≠ 0 := by omega
  have hr : 0 ≤ Int.tmod (Int.tdiv now 500) (W - 20) :=
    Int.tmod_nonneg _ (Int.tdiv_nonneg hnow (by decide))
  have hpos : positionAt W now =
      some (W - 20 - Int.tmod (Int.tdiv now 500) (W - 20)) := by
    simp [positionAt, goMod, hne]
  obtain ⟨sprite, hmem, hsget, hget⟩ := getHorseLines_of_position E W hE now hnow _ hpos
  obtain ⟨l0, l1, rfl⟩ := exists_pair_of_length_two sprite (hE.two_lines sprite hmem)
  refine ⟨W - 20 - Int.tmod (Int.tdiv now 500) (W - 20), l0, l1,
    debugLogging E debugFile w now (now / 250 % NumFrames E)
      (W - 20 - Int.tmod (Int.tdiv now 500) (W - 20)) (W - 20),
    hpos, by omega, hsget, ?_⟩
  have hd : dots (W - 20 - Int.tmod (Int.tdiv now 500) (W - 20)) = "" := by
    apply String.ext
    have h0 : (W - 20 - Int.tmod (Int.tdiv now 500) (W - 20)).toNat = 0 := by omega
    simp [dots, h0]
  rw [hget debugFile w, rows_of_two_lines, hd]
  simp

/-! ## Composition of the rows (C4, C8, C9) -/

/-- At a non-negative timestamp, on tables that satisfy the invariant with
`W > 20`: the frame index, the position (in `1 .. W - 20`), the two-line
sprite selected, and the four rows returned. -/
theorem getHorseLines_rows (E : Env) (W : Int) (hE : TablesInvariant E W)
    (hW : 20 < W) (now : Int) (hnow : 0 ≤ now) (debugFile : Bool) (w : World) :
    ∃ frameIndex pos l0 l1 w1,
      frameIndexAt E now = some frameIndex ∧ positionAt W now = some pos ∧
      1 ≤ pos ∧ pos ≤ W - 20 ∧
      GetHorseSprite E frameIndex = some [l0, l1] ∧ [l0, l1] ∈ E.HorseSprite ∧
      getHorseLines E debugFile w now =
        some ([ dots pos ++ dots (W - pos),
                dots pos ++ l0 ++ dots (W - pos - StringWidth E l0),
                dots pos ++ l1 ++ dots (W - pos - StringWidth E l1),
                dots pos ++ dots (W - pos) ], w1) := by
  obtain ⟨sprite, hmem, hsget, hget⟩ := getHorseLines_of_nonneg E W hE hW now hnow
  obtain ⟨l0, l1, rfl⟩ := exists_pair_of_length_two sprite (hE.two_lines sprite hmem)
  obtain ⟨hp1, hp2⟩ := position_range W now hW
  have hlen : 0 < E.HorseFrames.length := List.length_pos.mpr hE.nonempty
  have hN : (0 : Int) < NumFrames E := by
    simp only [NumFrames]; exact_mod_cast hlen
  have h0 : ¬ now / 250 % NumFrames E < 0 := not_lt.mpr (Int.emod_nonneg _ (ne_of_gt hN))
  refine ⟨now / 250 % NumFrames E, W - 20 - now / 500 % (W - 20), l0, l1,
    debugLogging E debugFile w now (now / 250 % NumFrames E)
      (W - 20 - now / 500 % (W - 20)) (W - 20),
    frameIndexAt_of_nonneg E hE.nonempty now hnow, positionAt_of_nonneg W now hW hnow,
    hp1, hp2, ?_, hmem, ?_⟩
  · simp only [GetHorseSprite, goIndex, h0, if_false, hsget]
  · rw [hget debugFile w, rows_of_two_lines]

/-- C4: at every non-negative timestamp (tables satisfying the invariant with
`W > 20`), with the position and the sprite selected by `getHorseLines`,
output row 1 (resp. row 2) is exactly `position` fillers, then sprite line 0
(resp. line 1) rune for rune, then `max 0 (W - position - width spriteLine)`
fillers: nothing is appended when the remainder is not positive, and no
sprite rune is dropped. -/
theorem getHorseLines_sprite_rows (E : Env) (W : Int) (hE : TablesInvariant E W)
    (hW : 20 < W) (now : Int) (hnow : 0 ≤ now) (debugFile : Bool) (w : World) :
    ∃ frameIndex pos l0 l1 r0 r1 r2 r3 w1,
      frameIndexAt E now = some frameIndex ∧ positionAt W now = some pos ∧ 0 ≤ pos ∧
      GetHorseSprite E frameIndex = some [l0, l1] ∧
      getHorseLines E debugFile w now = some ([r0, r1, r2, r3], w1) ∧
      r1.data = List.replicate pos.toNat '.' ++ l0.data ++
        List.replicate (max 0 (W - pos - StringWidth E l0)).toNat '.' ∧
      r2.data = List.replicate pos.toNat '.' ++ l1.data ++
        List.replicate (max 0 (W - pos - StringWidth E l1)).toNat '.' := by
  obtain ⟨frameIndex, pos, l0, l1, w1, hfi, hpos, hp1, -, hsprite, -, hget⟩ :=
    getHorseLines_rows E W hE hW now hnow debugFile w
  have hmax : ∀ x : Int, (max 0 x).toNat = x.toNat := fun x => by omega
  exact ⟨frameIndex, pos, l0, l1, _, _, _, _, w1, hfi, hpos, by omega, hsprite, hget,
    by simp only [String.data_append, dots_data, hmax],
    by simp only [String.data_append, dots_data, hmax]⟩

theorem getHorseLines_sprite_rows_witness :
    ∃ frameIndex pos l0 l1 r0 r1 r2 r3 w1,
      frameIndexAt (sampleEnv 95) 37000 = some frameIndex ∧
      positionAt 95 37000 = some pos ∧ 0 ≤ pos ∧
      GetHorseSprite (sampleEnv 95) frameIndex = some [l0, l1] ∧
      getHorseLines (sampleEnv 95) true ⟨none, []⟩ 37000 = some ([r0, r1, r2, r3], w1) ∧
      r1.data = List.replicate pos.toNat '.' ++ l0.data ++
        List.replicate (max 0 (95 - pos - StringWidth (sampleEnv 95) l0)).toNat '.' ∧
      r2.data = List.replicate pos.toNat '.' ++ l1.data ++
        List.replicate (max 0 (95 - pos - StringWidth (sampleEnv 95) l1)).toNat '.' :=
  getHorseLines_sprite_rows (sampleEnv 95) 95 (sampleEnv_invariant 95) (by decide) 37000
    (by decide) true ⟨none, []⟩

/-- C8: at every non-negative timestamp, with the reference width 95 and
sprites of exactly 2 lines (the invariant), rows 0 and 3 returned by
`getHorseLines` are exactly 95 fillers and nothing else. -/
theorem getHorseLines_outer_rows (E : Env) (hE : TablesInvariant E 95) (now : Int)
    (hnow : 0 ≤ now) (debugFile : Bool) (w : World) :
    ∃ r0 r1 r2 r3 w1, getHorseLines E debugFile w now = some ([r0, r1, r2, r3], w1) ∧
      r0.data = List.replicate 95 '.' ∧ r3.data = List.replicate 95 '.' := by
  obtain ⟨frameIndex, pos, l0, l1, w1, -, -, hp1, hp2, -, -, hget⟩ :=
    getHorseLines_rows E 95 hE (by decide) now hnow debugFile w
  have hrow : (dots pos ++ dots (95 - pos)).data = List.replicate 95 '.' := by
    rw [dots_append_dots pos (95 - pos) (by omega) (by omega), dots_data]
    have h : (pos + (95 - pos)).toNat = 95 := by omega
    rw [h]
  exact ⟨_, _, _, _, w1, hget, hrow, hrow⟩

theorem getHorseLines_outer_rows_witness :
    ∃ r0 r1 r2 r3 w1,
      getHorseLines (sampleEnv 95) false ⟨none, []⟩ 1000 = some ([r0, r1, r2, r3], w1) ∧
      r0.data = List.replicate 95 '.' ∧ r3.data = List.replicate 95 '.' :=
  getHorseLines_outer_rows (sampleEnv 95) (sampleEnv_invariant 95) 1000 (by decide) false
    ⟨none, []⟩

theorem getLast?_append_dots (l : List Char) (n : Int) (hn : 0 < n) :
    (l ++ (dots n).data).getLast? = some '.' := by
  obtain ⟨k, hk⟩ : ∃ k, n.toNat = k + 1 := ⟨n.toNat - 1, by omega⟩
  rw [dots_data, hk, List.replicate_succ', ← List.append_assoc, List.getLast?_append]
  simp

/-- C9: at every non-negative timestamp, with the reference width 95 and
sprite lines at most 8 cells wide, every line returned by `getHorseLines`
ends with the filler `'.'` (the padding after the sprite is not empty), so no
line ends in a space. -/
theorem getHorseLines_no_trailing_space (E : Env) (hE : TablesInvariant E 95)
    (hS : SpriteWidthAtMost E 8) (now : Int) (hnow : 0 ≤ now) (debugFile : Bool)
    (w : World) :
    ∃ lines w1, getHorseLines E debugFile w now = some (lines, w1) ∧
      ∀ line ∈ lines, line.data.getLast? = some '.' ∧ line.data.getLast? ≠ some ' ' := by
  obtain ⟨frameIndex, pos, l0, l1, w1, -, -, hp1, hp2, -, hmem, hget⟩ :=
    getHorseLines_rows E 95 hE (by decide) now hnow debugFile w
  have h0 := hS _ hmem l0 (by simp)
  have h1 := hS _ hmem l1 (by simp)
  have key : ∀ line : String, line.data.getLast? = some '.' →
      line.data.getLast? = some '.' ∧ line.data.getLast? ≠ some ' ' := by
    intro line h
    refine ⟨h, ?_⟩
    rw [h]
    decide
  refine ⟨_, w1, hget, ?_⟩
  intro line hline
  simp only [List.mem_cons, List.mem_singleton, List.not_mem_nil, or_false] at hline
  apply key
  rcases hline with rfl | rfl | rfl | rfl
  · exact getLast?_append_dots _ _ (by omega)
  · exact getLast?_append_dots _ _ (by omega)
  · exact getLast?_append_dots _ _ (by omega)
  · exact getLast?_append_dots _ _ (by omega)

theorem getHorseLines_no_trailing_space_witness :
    ∃ lines w1, getHorseLines (sampleEnv 95) false ⟨none, []⟩ 500 = some (lines, w1) ∧
      ∀ line ∈ lines, line.data.getLast? = some '.' ∧ line.data.getLast? ≠ some ' ' :=
  getHorseLines_no_trailing_space (sampleEnv 95) (sampleEnv_invariant 95)
    (sampleEnv_spriteWidth 95) 500 (by decide) false ⟨none, []⟩

/-! ## The position over time (C5, C10) -/

/-- The position on the reference track at a non-negative timestamp. -/
theorem positionAt_reference (now : Int) (hnow : 0 ≤ now) :
    positionAt 95 now = some (75 - now / 500 % 75) := by
  have h := positionAt_of_nonneg 95 now (by decide) hnow
  simpa using h

/-- C5, as stated, fails: on the reference track no non-negative timestamp
gives position 0. -/
theorem position_zero_unreached :
    ¬ ∃ now : Int, 0 ≤ now ∧ positionAt 95 now = some 0 := by
  rintro ⟨now, hnow, h⟩
  rw [positionAt_reference now hnow] at h
  have h2 := Int.emod_lt_of_pos (now / 500) (show (0 : Int) < 75 by decide)
  have h3 : 75 - now / 500 % 75 = 0 := Option.some.inj h
  omega

/-- C5, amended: on the reference track (`W = 95`, `maxPosition = 75`) the
positions attained over the non-negative timestamps are exactly `1 .. 75`,
and the position is a sawtooth: 500 ms later it is one less, except that from
1 it snaps back to 75. -/
theorem position_sawtooth :
    (∀ p : Int, (∃ now : Int, 0 ≤ now ∧ positionAt 95 now = some p) ↔ (1 ≤ p ∧ p ≤ 75)) ∧
    (∀ now : Int, 0 ≤ now → ∃ p : Int, positionAt 95 now = some p ∧
      positionAt 95 (now + 500) = some (if p = 1 then 75 else p - 1)) := by
  constructor
  · intro p
    constructor
    · rintro ⟨now, hnow, h⟩
      rw [positionAt_reference now hnow] at h
      have h1 := Int.emod_nonneg (now / 500) (show (75 : Int) ≠ 0 by decide)
      have h2 := Int.emod_lt_of_pos (now / 500) (show (0 : Int) < 75 by decide)
      have h3 : 75 - now / 500 % 75 = p := Option.some.inj h
      omega
    · rintro ⟨h1, h2⟩
      refine ⟨500 * (75 - p), by omega, ?_⟩
      rw [positionAt_reference _ (by omega)]
      have hq : 500 * (75 - p) / 500 = 75 - p := by omega
      have hr : (75 - p) % 75 = 75 - p := by omega
      rw [hq, hr]
      congr 1
      omega
  · intro now hnow
    refine ⟨75 - now / 500 % 75, positionAt_reference now hnow, ?_⟩
    rw [positionAt_reference _ (by omega)]
    have hq : (now + 500) / 500 = now / 500 + 1 := by omega
    rw [hq]
    congr 1
    split <;> omega

/-- C10: on the reference track, for every non-negative timestamp `t` the
position computed at `t` differs from the position computed at `t + 1000` ms. -/
theorem position_progress (t : Int) (ht : 0 ≤ t) :
    ∃ p q : Int, positionAt 95 t = some p ∧ positionAt 95 (t + 1000) = some q ∧ p ≠ q := by
  refine ⟨_, _, positionAt_reference t ht, positionAt_reference _ (by omega), ?_⟩
  have hq : (t + 1000) / 500 = t / 500 + 2 := by omega
  rw [hq]
  omega

theorem position_progress_witness :
    ∃ p q : Int, positionAt 95 0 = some p ∧ positionAt 95 (0 + 1000) = some q ∧ p ≠ q :=
  position_progress 0 (by decide)

/-! ## Independence from the debug sink and the persisted state (C7) -/

/-- The result of `getHorseLines`, split into what the timestamp determines
and what the debug arguments add. -/
theorem getHorseLines_core (E : Env) (now : Int) :
    ∃ core : Option (List String × Int × Int × Int),
      ∀ (debugFile : Bool) (w : World),
        (getHorseLines E debugFile w now).map Prod.fst = core.map (fun c => c.1) ∧
        (getHorseLines E false w now).map Prod.snd = core.map (fun _ => w) ∧
        (getHorseLines E true w now).map Prod.snd = core.map (fun c =>
          { stateFile := w.stateFile,
            writes := w.writes ++
              [ Write.debugLog
                  { now := now, frameIndex := c.2.1, numFrames := NumFrames E,
                    position := c.2.2.1, maxPos := c.2.2.2,
                    lastCallTime := (loadLastCallState w).1 },
                Write.stateFile
                  { LastCallTime := now, FrameIndex := c.2.1, Position := c.2.2.1 } ] }) := by
  refine ⟨(frameIndexAt E now).bind fun frameIndex =>
    (goIndex E.HorseFrames frameIndex).bind fun frame =>
    (GetHorseSprite E frameIndex).bind fun sprite =>
    (goIndex frame 0).bind fun line =>
    (positionAt (StringWidth E line) now).map fun position =>
      ([0, 1, 2, 3].map (buildRow E (StringWidth E line) position sprite),
        frameIndex, position, StringWidth E line - 20), ?_⟩
  intro debugFile w
  cases h1 : frameIndexAt E now with
  | none => simp [getHorseLines, h1]
  | some frameIndex =>
    cases h2 : goIndex E.HorseFrames frameIndex with
    | none => simp [getHorseLines, h1, h2]
    | some frame =>
      cases h3 : GetHorseSprite E frameIndex with
      | none => simp [getHorseLines, h1, h2, h3]
      | some sprite =>
        cases h4 : goIndex frame 0 with
        | none => simp [getHorseLines, h1, h2, h3, h4]
        | some line =>
          cases h5 : positionAt (StringWidth E line) now with
          | none => simp [getHorseLines, h1, h2, h3, h4, h5]
          | some position =>
            simp [getHorseLines, h1, h2, h3, h4, h5, debugLogging, saveLastCallState]

/-- C7: for every timestamp, the four lines returned by `getHorseLines` (or
its failure) are the same whether or not a debug sink is supplied and
whatever call state was persisted.  The timestamp alone determines a value
`core` (the lines with the frame index, position and `maxPos`) such that
without a sink no write is requested, and with a sink two writes are
requested, the log line and the state `(now, frameIndex, position)`; the
persisted state enters them only as `lastCallTime`, the operand of the
elapsed time `now.Sub(lastCallTime)` of the log line. -/
theorem getHorseLines_deterministic (E : Env) (now : Int) :
    (∀ (debugFile debugFile' : Bool) (w w' : World),
      (getHorseLines E debugFile w now).map Prod.fst =
        (getHorseLines E debugFile' w' now).map Prod.fst) ∧
    ∃ core : Option (List String × Int × Int × Int),
      ∀ (debugFile : Bool) (w : World),
        (getHorseLines E debugFile w now).map Prod.fst = core.map (fun c => c.1) ∧
        (getHorseLines E false w now).map Prod.snd = core.map (fun _ => w) ∧
        (getHorseLines E true w now).map Prod.snd = core.map (fun c =>
          { stateFile := w.stateFile,
            writes := w.writes ++
              [ Write.debugLog
                  { now := now, frameIndex := c.2.1, numFrames := NumFrames E,
                    position := c.2.2.1, maxPos := c.2.2.2,
                    lastCallTime := (loadLastCallState w).1 },
                Write.stateFile
                  { LastCallTime := now, FrameIndex := c.2.1, Position := c.2.2.1 } ] }) := by
  obtain ⟨core, hcore⟩ := getHorseLines_core E now
  refine ⟨fun debugFile debugFile' w w' => ?_, core, hcore⟩
  rw [(hcore debugFile w).1, (hcore debugFile' w').1]

/-! ## The colouring loop (C6) -/

theorem colorStep_foldl (cs : List Char) (acc : List Chunk) (inColor : Bool) :
    (if (cs.foldl colorStep (acc, inColor)).2
      then (cs.foldl colorStep (acc, inColor)).1 ++ [Chunk.off]
      else (cs.foldl colorStep (acc, inColor)).1) = acc ++ colorFrom inColor cs := by
  induction cs generalizing acc inColor with
  | nil => cases inColor <;> simp [colorFrom]
  | cons ch rest ih =>
    rw [List.foldl_cons]
    cases hp : isPlain ch <;> cases inColor <;>
      simp [colorStep, hp, colorFrom, ih]

theorem colorWrites_eq_colorFrom (line : String) :
    colorWrites line = colorFrom false line.data := by
  have h := colorStep_foldl line.data [] false
  simpa [colorWrites] using h

theorem colorFrom_true (cs : List Char) :
    colorFrom true cs = closeSpan (colorFrom false cs) := by
  cases cs with
  | nil => simp [colorFrom, closeSpan]
  | cons ch rest => cases hp : isPlain ch <;> simp [colorFrom, hp, closeSpan]

theorem maximalRuns_cons (ch : Char) (rest : List Char) :
    maximalRuns (ch :: rest) =
      match maximalRuns rest with
      | [] => [(isPlain ch, [ch])]
      | (p, run) :: runs =>
        if isPlain ch = p then (p, ch :: run) :: runs
        else (isPlain ch, [ch]) :: (p, run) :: runs := by
  rw [maximalRuns]

/-- The runs are not empty and uniform in class. -/
theorem maximalRuns_uniform (cs : List Char) :
    ∀ r ∈ maximalRuns cs, r.2 ≠ [] ∧ ∀ ch ∈ r.2, isPlain ch = r.1 := by
  induction cs with
  | nil => simp [maximalRuns]
  | cons ch rest ih =>
    rw [maximalRuns_cons]
    cases hr : maximalRuns rest with
    | nil => simp
    | cons r runs =>
      obtain ⟨p, run⟩ := r
      rw [hr] at ih
      have ihr := ih (p, run) (List.mem_cons_self _ _)
      have iht : ∀ r ∈ runs, r.2 ≠ [] ∧ ∀ ch ∈ r.2, isPlain ch = r.1 :=
        fun r hmem => ih r (List.mem_cons_of_mem _ hmem)
      by_cases hc : isPlain ch = p
      · simp only [hc, if_true]
        intro r hmem
        rcases List.mem_cons.mp hmem with rfl | hmem
        · refine ⟨by simp, fun c hcmem => ?_⟩
          rcases List.mem_cons.mp hcmem with rfl | hcmem
          · exact hc
          · exact ihr.2 c hcmem
        · exact iht r hmem
      · simp only [hc, if_false]
        intro r hmem
        rcases List.mem_cons.mp hmem with rfl | hmem
        · simp
        · exact ih r hmem

/-- The runs, put end to end, are the line. -/
theorem maximalRuns_flatten (cs : List Char) :
    (maximalRuns cs).flatMap Prod.snd = cs := by
  induction cs with
  | nil => simp [maximalRuns]
  | cons ch rest ih =>
    rw [maximalRuns_cons]
    cases hr : maximalRuns rest with
    | nil =>
      rw [hr] at ih
      simp at ih
      simp [← ih]
    | cons r runs =>
      obtain ⟨p, run⟩ := r
      rw [hr] at ih
      by_cases hc : isPlain ch = p
      · simp only [hc, if_true]
        simp only [List.flatMap_cons] at ih ⊢
        simp [ih]
      · simp only [hc, if_false]
        simp only [List.flatMap_cons] at ih ⊢
        simp [ih]

/-- Neighbouring runs differ in class: the runs are maximal. -/
theorem maximalRuns_chain (cs : List Char) :
    List.Chain' (fun a b : Bool × List Char => a.1 ≠ b.1) (maximalRuns cs) := by
  induction cs with
  | nil => simp [maximalRuns]
  | cons ch rest ih =>
    rw [maximalRuns_cons]
    cases hr : maximalRuns rest with
    | nil => simp
    | cons r runs =>
      obtain ⟨p, run⟩ := r
      rw [hr] at ih
      by_cases hc : isPlain ch = p
      · simp only [hc, if_true]
        cases runs with
        | nil => simp
        | cons r2 runs2 =>
          rw [List.chain'_cons] at ih ⊢
          exact ih
      · simp only [hc, if_false]
        rw [List.chain'_cons]
        exact ⟨hc, ih⟩

theorem closeSpan_rune (ch : Char) (ws : List Chunk) :
    closeSpan (Chunk.rune ch :: ws) = Chunk.off :: Chunk.rune ch :: ws := rfl

/-- The loop and the runs agree. -/
theorem colorFrom_eq_runs (cs : List Char) :
    colorFrom false cs = (maximalRuns cs).flatMap spanWrites := by
  induction cs with
  | nil => simp [colorFrom, maximalRuns]
  | cons ch rest ih =>
    have huni := maximalRuns_uniform rest
    rw [maximalRuns_cons]
    cases hr : maximalRuns rest with
    | nil =>
      rw [hr] at ih
      cases hp : isPlain ch <;>
        simp [colorFrom, hp, colorFrom_true, ih, spanWrites, closeSpan]
    | cons r runs =>
      obtain ⟨p, run⟩ := r
      rw [hr] at ih huni
      obtain ⟨hne, -⟩ := huni (p, run) (List.mem_cons_self _ _)
      obtain ⟨c, run1, rfl⟩ := List.exists_cons_of_ne_nil hne
      cases hp : isPlain ch <;> cases p <;>
        simp [colorFrom, hp, colorFrom_true, ih, spanWrites, closeSpan]

theorem count_on_runes (run : List Char) : (run.map Chunk.rune).count Chunk.on = 0 := by
  rw [List.count_eq_zero]
  simp

theorem count_off_runes (run : List Char) : (run.map Chunk.rune).count Chunk.off = 0 := by
  rw [List.count_eq_zero]
  simp

/-- Every coloured run contributes one colour-on and one reset, every plain
run none. -/
theorem count_spans (runs : List (Bool × List Char)) :
    (runs.flatMap spanWrites).count Chunk.on = (runs.filter (fun r => !r.1)).length ∧
    (runs.flatMap spanWrites).count Chunk.off = (runs.filter (fun r => !r.1)).length := by
  induction runs with
  | nil => simp
  | cons r runs ih =>
    obtain ⟨p, run⟩ := r
    obtain ⟨ih1, ih2⟩ := ih
    cases p
    · simp [List.flatMap_cons, spanWrites, List.count_cons, List.count_append, ih1, ih2,
        count_on_runes, count_off_runes]
    · simp [List.flatMap_cons, spanWrites, List.count_append, ih1, ih2, count_on_runes,
        count_off_runes]

theorem builderString_foldl_data (ws : List Chunk) (acc : String) :
    (ws.foldl (fun acc c => acc ++ c.text) acc).data =
      acc.data ++ ws.flatMap (fun c => c.text.data) := by
  induction ws generalizing acc with
  | nil => simp
  | cons c ws ih => simp [List.foldl_cons, ih, List.flatMap_cons]

theorem builderString_data (ws : List Chunk) :
    (builderString ws).data = ws.flatMap (fun c => c.text.data) := by
  simp [builderString, builderString_foldl_data]

theorem join_foldl_data (ss : List String) (acc : String) :
    (ss.foldl (fun r s => r ++ s) acc).data = acc.data ++ ss.flatMap String.data := by
  induction ss generalizing acc with
  | nil => simp
  | cons t ss ih => simp [List.foldl_cons, ih, List.flatMap_cons]

theorem spanWrites_text (r : Bool × List Char) :
    (spanWrites r).flatMap (fun c => c.text.data) = (spanText r).data := by
  obtain ⟨p, run⟩ := r
  have hrune : ∀ c : Char, (Chunk.rune c).text.data = [c] := fun _ => rfl
  have hrun : (run.map Chunk.rune).flatMap (fun c => c.text.data) = run := by
    induction run with
    | nil => rfl
    | cons c run ih => rw [List.map_cons, List.flatMap_cons, ih, hrune]; rfl
  cases p
  · simp only [spanWrites, spanText, Bool.false_eq_true, if_false, List.flatMap_cons,
      List.flatMap_append, hrun, List.flatMap_nil, String.data_append, List.append_nil,
      List.append_assoc]
    rfl
  · simp only [spanWrites, spanText, if_true, hrun]

/-- C6: for every line, the writes of the colouring loop are those of the
maximal runs of the line, in order: a run of fillers and spaces as it is, with
no escape sequence, and a run of other characters as colour-on, the run,
reset.  So the printed text is the concatenation of the runs' texts, the
colour-on sequences, the resets and the runs of other characters are equal
in number, and every span opened is closed within the line.  The runs are
what the name says: put end to end they are the line, none is empty, each is
uniform in class, and neighbours differ in class. -/
theorem colorWrites_spans (line : String) :
    colorWrites line = (maximalRuns line.data).flatMap spanWrites ∧
    colorLine line = String.join ((maximalRuns line.data).map spanText) ∧
    (colorWrites line).count Chunk.on =
      ((maximalRuns line.data).filter (fun r => !r.1)).length ∧
    (colorWrites line).count Chunk.off =
      ((maximalRuns line.data).filter (fun r => !r.1)).length ∧
    (maximalRuns line.data).flatMap Prod.snd = line.data ∧
    (∀ r ∈ maximalRuns line.data, r.2 ≠ [] ∧ ∀ ch ∈ r.2, isPlain ch = r.1) ∧
    List.Chain' (fun a b : Bool × List Char => a.1 ≠ b.1) (maximalRuns line.data) := by
  have hw : colorWrites line = (maximalRuns line.data).flatMap spanWrites := by
    rw [colorWrites_eq_colorFrom, colorFrom_eq_runs]
  refine ⟨hw, ?_, ?_, ?_, maximalRuns_flatten _, maximalRuns_uniform _, maximalRuns_chain _⟩
  · apply String.ext
    rw [colorLine, builderString_data, hw, String.join, join_foldl_data]
    generalize maximalRuns line.data = runs
    induction runs with
    | nil => rfl
    | cons r runs ih =>
      simp only [List.flatMap_cons, List.flatMap_append, List.map_cons, spanWrites_text] at ih ⊢
      rw [ih]
      simp
  · rw [hw]; exact (count_spans _).1
  · rw [hw]; exact (count_spans _).2

/-! ## The frame cycle (C11) -/

/-- C11: for every non-negative timestamp `t` and a frame table of `N > 0`
frames, the frame index at `t + 250` ms is (the frame index at `t`, plus 1)
mod `N`; the frame index has period `250 * N` ms, and every one of the `N`
frames is selected at some timestamp of the window `t .. t + 250 * N - 1`. -/
theorem frameIndexAt_cycle (E : Env) (hN : E.HorseFrames ≠ []) (t : Int) (ht : 0 ≤ t) :
    ∃ i : Int, frameIndexAt E t = some i ∧ 0 ≤ i ∧ i < NumFrames E ∧
      frameIndexAt E (t + 250) = some ((i + 1) % NumFrames E) ∧
      frameIndexAt E (t + 250 * NumFrames E) = some i ∧
      ∀ k : Int, 0 ≤ k → k < NumFrames E →
        ∃ s : Int, t ≤ s ∧ s < t + 250 * NumFrames E ∧ frameIndexAt E s = some k := by
  have hlen : 0 < E.HorseFrames.length := List.length_pos.mpr hN
  have hpos : (0 : Int) < NumFrames E := by
    simp only [NumFrames]; exact_mod_cast hlen
  have hne : NumFrames E ≠ 0 := ne_of_gt hpos
  refine ⟨t / 250 % NumFrames E, frameIndexAt_of_nonneg E hN t ht,
    Int.emod_nonneg _ hne, Int.emod_lt_of_pos _ hpos, ?_, ?_, ?_⟩
  · rw [frameIndexAt_of_nonneg E hN _ (by omega)]
    have hq : (t + 250) / 250 = t / 250 + 1 := by omega
    rw [hq, Int.emod_add_emod]
  · rw [frameIndexAt_of_nonneg E hN _ (by omega)]
    have hq : (t + 250 * NumFrames E) / 250 = t / 250 + NumFrames E := by omega
    rw [hq, Int.add_emod_self]
  · intro k hk0 hk1
    have hj0 := Int.emod_nonneg (k - t / 250 % NumFrames E) hne
    have hj1 := Int.emod_lt_of_pos (k - t / 250 % NumFrames E) hpos
    refine ⟨t + 250 * ((k - t / 250 % NumFrames E) % NumFrames E), by omega, by omega, ?_⟩
    rw [frameIndexAt_of_nonneg E hN _ (by omega)]
    have hq : (t + 250 * ((k - t / 250 % NumFrames E) % NumFrames E)) / 250 =
        t / 250 + (k - t / 250 % NumFrames E) % NumFrames E := by omega
    have hsum : t / 250 + (k - t / 250 % NumFrames E) =
        k + NumFrames E * (t / 250 / NumFrames E) := by
      have := Int.emod_add_ediv (t / 250) (NumFrames E)
      omega
    rw [hq, Int.add_emod_emod, hsum, Int.add_mul_emod_self_left, Int.emod_eq_of_lt hk0 hk1]

theorem frameIndexAt_cycle_witness :
    ∃ i : Int, frameIndexAt (sampleEnv 95) 37000 = some i ∧ 0 ≤ i ∧
      i < NumFrames (sampleEnv 95) ∧
      frameIndexAt (sampleEnv 95) (37000 + 250) = some ((i + 1) % NumFrames (sampleEnv 95)) ∧
      frameIndexAt (sampleEnv 95) (37000 + 250 * NumFrames (sampleEnv 95)) = some i ∧
      ∀ k : Int, 0 ≤ k → k < NumFrames (sampleEnv 95) →
        ∃ s : Int, 37000 ≤ s ∧ s < 37000 + 250 * NumFrames (sampleEnv 95) ∧
          frameIndexAt (sampleEnv 95) s = some k :=
  frameIndexAt_cycle (sampleEnv 95) (by simp [sampleEnv]) 37000 (by decide)

/-! ## `trimNullBytes` (C12) -/

theorem trimNullBytes_foldl (data acc : List Byte) :
    data.foldl (fun result b => if b ≠ 0 then result ++ [b] else result) acc =
      acc ++ data.filter (fun b => decide (b ≠ 0)) := by
  induction data generalizing acc with
  | nil => simp
  | cons b rest ih =>
    rw [List.foldl_cons, ih]
    by_cases hb : b = 0
    · simp [hb]
    · simp [hb]

/-- C12: for every byte sequence, `trimNullBytes` returns the input with every
zero byte removed and all other bytes kept in their original order (the
sublist of the non-zero bytes); the result contains no zero byte, and
applying `trimNullBytes` again leaves it unchanged. -/
theorem trimNullBytes_spec (data : List Byte) :
    trimNullBytes data = data.filter (fun b => decide (b ≠ 0)) ∧
    List.Sublist (trimNullBytes data) data ∧
    (∀ b : Byte, b ∈ trimNullBytes data ↔ (b ∈ data ∧ b ≠ 0)) ∧
    (0 : Byte) ∉ trimNullBytes data ∧
    trimNullBytes (trimNullBytes data) = trimNullBytes data := by
  have h : ∀ xs : List Byte, trimNullBytes xs = xs.filter (fun b => decide (b ≠ 0)) := by
    intro xs
    rw [trimNullBytes, trimNullBytes_foldl, List.nil_append]
  refine ⟨h data, ?_, ?_, ?_, ?_⟩
  · rw [h]; exact List.filter_sublist _
  · intro b
    rw [h, List.mem_filter]
    simp
  · rw [h, List.mem_filter]
    simp
  · rw [h, h, List.filter_filter]
    simp

end Statusline
